import Mathlib

/-!
Shallow embedding of `src/monitor/calc_ipmi_energy.py`.

Timestamps are modelled as natural numbers of seconds; minute keys are the
timestamp divided by 60 (the `dt.floor("min")` bucket).  Power values and all
derived quantities are rationals, the exact arithmetic the script's formulas
denote.  Parsing failures (`errors="coerce"`) are modelled by `Option` fields
on the input rows; the three fatal `ValueError`s of the script become the
typed errors `Err`.
-/

namespace CalcIpmiEnergy

/-- One input row after per-cell parsing: `ts` is the parsed timestamp
(seconds; `none` when `pd.to_datetime` coerced it to `NaT`), `p` the parsed
power (`none` when `pd.to_numeric` coerced it to `NaN`). -/
structure Row where
  ts : Option Nat
  p : Option ℚ
deriving Repr, DecidableEq

/-- The typed errors of `compute_energy` (the script raises `ValueError` with
the corresponding messages). -/
inductive Err where
  | unparsableTimestamps
  | emptyInput
  | emptyResult
deriving Repr, DecidableEq

/-- Embeds `df.dropna(subset=["_ts", "_p"])`: the (timestamp, power) pairs
that survive parsing. -/
def survivors (rows : List Row) : List (Nat × ℚ) :=
  rows.filterMap fun r =>
    match r.ts, r.p with
    | some t, some p => some (t, p)
    | _, _ => none

/-- Embeds `_ts.dt.floor("min")`: the minute bucket of a timestamp in seconds. -/
def minuteOf (t : Nat) : Nat := t / 60

/-- The minute buckets of all surviving pairs. -/
def minutesOf (ps : List (Nat × ℚ)) : List Nat := ps.map fun q => minuteOf q.1

/-- The power values falling in minute bucket `k`. -/
def groupVals (ps : List (Nat × ℚ)) (k : Nat) : List ℚ :=
  ps.filterMap fun q => if minuteOf q.1 = k then some q.2 else none

/-- Embeds `groupby("_minute")["_p"].mean()`: the mean of the values in bucket `k`. -/
def groupMean (ps : List (Nat × ℚ)) (k : Nat) : ℚ :=
  (groupVals ps k).sum / (groupVals ps k).length

/-- The distinct minute buckets occurring in `ps`, ascending (the sorted
group keys of `groupby`). -/
def minuteKeysOf (ps : List (Nat × ℚ)) : List Nat :=
  (List.range ((minutesOf ps).foldr max 0 + 1)).filter fun k => decide (k ∈ minutesOf ps)

/-- Embeds `per_min`: minute key ↦ mean power, ascending by key. -/
def perMin (ps : List (Nat × ℚ)) : List (Nat × ℚ) :=
  (minuteKeysOf ps).map fun k => (k, groupMean ps k)

/-- Embeds `per_min.index.min()`: the smallest minute bucket (0 on empty input,
which `compute_energy` rules out). -/
def startKey (ps : List (Nat × ℚ)) : Nat :=
  match minutesOf ps with
  | [] => 0
  | m :: ms => ms.foldr min m

/-- Embeds `per_min.index.max()`: the largest minute bucket. -/
def endKey (ps : List (Nat × ℚ)) : Nat :=
  match minutesOf ps with
  | [] => 0
  | m :: ms => ms.foldr max m

/-- Embeds `pd.date_range(start, end, freq="1min")` as minute keys: `L` consecutive
minutes starting at `s`. -/
def minuteRange (s L : Nat) : List Nat := (List.range L).map (s + ·)

/-- Embeds `full_idx`: the complete minute timeline inside `[start .. end]`. -/
def timelineOf (ps : List (Nat × ℚ)) : List Nat :=
  minuteRange (startKey ps) (endKey ps - startKey ps + 1)

/-- Embeds `per_min.reindex(full_idx)` at one key: present value or missing. -/
def lookupKey (k : Nat) (pm : List (Nat × ℚ)) : Option ℚ := List.lookup k pm

/-- Embeds `series = per_min.reindex(full_idx)`: the aligned series, positionally
parallel to the timeline, `none` marking a missing minute. -/
def alignedOf (ps : List (Nat × ℚ)) : List (Option ℚ) :=
  (timelineOf ps).map fun k => lookupKey k (perMin ps)

/-- The gap-scanning loop of `build_gap_report` over the missing mask:
maximal runs of `true`, as (start position, length) with positions counted
from `i`. -/
def missingRuns : Nat → List Bool → List (Nat × Nat)
  | _, [] => []
  | i, false :: rest => missingRuns (i + 1) rest
  | i, true :: rest =>
    match missingRuns (i + 1) rest with
    | [] => [(i, 1)]
    | (j, len) :: rs =>
      if j = i + 1 then (i, len + 1) :: rs else (i, 1) :: (j, len) :: rs

/-- The gaps of `build_gap_report`: each run `(i, len)` of missing minutes
becomes `(full_idx[i], full_idx[i+len-1], len)`.  (The indices are always in
range; `getD` is total lookup with an irrelevant default.) -/
def gapsOf (idx : List Nat) (series : List (Option ℚ)) : List (Nat × Nat × Nat) :=
  (missingRuns 0 (series.map Option.isNone)).map fun r =>
    (idx.getD r.1 0, idx.getD (r.1 + r.2 - 1) 0, r.2)

/-- The fixed length buckets `("1-2",1,2) … (">120",121,10^9)`. -/
def buckets : List (String × Nat × Nat) :=
  [("1-2", 1, 2), ("3-15", 3, 15), ("16-120", 16, 120), (">120", 121, 10 ^ 9)]

/-- The classification loop `for k, a, b in buckets: if a <= length <= b:
…; break`: the first bucket whose range contains `len`, if any. -/
def claimedBy (len : Nat) : Option String :=
  (buckets.find? fun t => decide (t.2.1 ≤ len ∧ len ≤ t.2.2)).map (·.1)

/-- One step of the stable descending sort `sorted(gaps, key=length,
reverse=True)`: insert `g` before the first element whose length is not
greater (so earlier gaps precede later gaps of equal length). -/
def insertGapDesc (g : Nat × Nat × Nat) : List (Nat × Nat × Nat) → List (Nat × Nat × Nat)
  | [] => [g]
  | h :: t => if g.2.2 < h.2.2 then h :: insertGapDesc g t else g :: h :: t

/-- Python's `sorted(gaps, key=lambda x: x[2], reverse=True)` is a stable
descending sort; modelled extensionally by stable insertion sort. -/
def sortGapsDesc : List (Nat × Nat × Nat) → List (Nat × Nat × Nat)
  | [] => []
  | g :: gs => insertGapDesc g (sortGapsDesc gs)

/-- The `GapReport` dataclass. -/
structure GapReport where
  gap_count : Nat
  minutes_missing : Nat
  missing_pct : ℚ
  bucket_counts : List (String × Nat)
  bucket_minutes : List (String × Nat)
  largest_gaps : List (Nat × Nat × Nat)
deriving Repr, DecidableEq

/-- Embeds `build_gap_report(full_idx, series, top_n)`.  The per-gap first-match
classification loop is tallied per bucket label via `claimedBy`. -/
def build_gap_report (full_idx : List Nat) (series : List (Option ℚ)) (top_n : Nat) :
    GapReport :=
  let missing_mask := series.map Option.isNone
  let minutes_total := full_idx.length
  let minutes_missing := missing_mask.count true
  let missing_pct : ℚ :=
    if minutes_total ≠ 0 then (minutes_missing : ℚ) / (minutes_total : ℚ) * 100 else 0
  let gaps := gapsOf full_idx series
  { gap_count := gaps.length
    minutes_missing := minutes_missing
    missing_pct := missing_pct
    bucket_counts := buckets.map fun t =>
      (t.1, (gaps.filter fun g => decide (claimedBy g.2.2 = some t.1)).length)
    bucket_minutes := buckets.map fun t =>
      (t.1, ((gaps.filter fun g => decide (claimedBy g.2.2 = some t.1)).map fun g => g.2.2).sum)
    largest_gaps := (sortGapsDesc gaps).take top_n }

/-- Embeds `series.ffill()` with the last seen present value carried in the
accumulator (`none` before the first present entry, which then stays
missing, exactly as pandas leaves leading NaNs). -/
def ffillAux : Option ℚ → List (Option ℚ) → List (Option ℚ)
  | _, [] => []
  | last, none :: rest => last :: ffillAux last rest
  | _, some v :: rest => some v :: ffillAux (some v) rest

/-- Embeds `series.ffill()`. -/
def ffill (series : List (Option ℚ)) : List (Option ℚ) := ffillAux none series

/-- Distance (number of further entries to skip) and value of the next
present entry, if any. -/
def nextSome : List (Option ℚ) → Option (Nat × ℚ)
  | [] => none
  | some v :: _ => some (0, v)
  | none :: rest => (nextSome rest).map fun d => (d.1 + 1, d.2)

/-- Embeds `series.interpolate(method="time").ffill()`: interior missing entries are
filled linearly between the neighbouring present values (uniform minute
spacing, so time weighting is position weighting), trailing missing entries
repeat the last present value, and leading missing entries stay missing
(`ffill` cannot fill them).  Carrying the previously filled value keeps the
linearity: each step moves 1/(remaining distance + 1) of the way to the next
present value. -/
def interpAux : Option ℚ → List (Option ℚ) → List (Option ℚ)
  | _, [] => []
  | _, some v :: rest => some v :: interpAux (some v) rest
  | none, none :: rest => none :: interpAux none rest
  | some pv, none :: rest =>
    match nextSome rest with
    | none => some pv :: interpAux (some pv) rest
    | some (d, nv) =>
      let w := pv + (nv - pv) / ((d : ℚ) + 2)
      some w :: interpAux (some w) rest

/-- Embeds `series.interpolate(method="time").ffill()`. -/
def interpFill (series : List (Option ℚ)) : List (Option ℚ) := interpAux none series

/-- The fill step of `compute_energy`, keyed by the timeline: `locf` and
`interp` keep the whole index, the remaining policy (`none`) is
`series.dropna()`, which drops the missing keys. -/
def fillSeries (fillp : String) (idx : List Nat) (series : List (Option ℚ)) :
    List (Nat × Option ℚ) :=
  if fillp = "locf" then idx.zip (ffill series)
  else if fillp = "interp" then idx.zip (interpFill series)
  else (idx.zip series).filter fun q => q.2.isSome

/-- The present values of a filled series (pandas sums and means skip NaN). -/
def presentVals (filled : List (Nat × Option ℚ)) : List ℚ := filled.filterMap (·.2)

/-- Embeds `float((filled / 60000.0).sum())`. -/
def total_kwh_of (filled : List (Nat × Option ℚ)) : ℚ :=
  ((presentVals filled).map fun w => w / 60000).sum

/-- Embeds `float(filled.mean())`. -/
def avg_watts_of (filled : List (Nat × Option ℚ)) : ℚ :=
  (presentVals filled).sum / (presentVals filled).length

/-- The `Result` dataclass (`end` is a Lean keyword, hence `end_`; the
power-column label is configuration outside the modelled core). -/
structure Result where
  start : Nat
  end_ : Nat
  minutes_total : Nat
  avg_watts : ℚ
  total_kwh : ℚ
  gap_report : GapReport
deriving Repr, DecidableEq

/-- Embeds `compute_energy(df, …, fill, …, top_gaps)` on parsed rows: fail when
every timestamp failed to parse, then when no row survives parsing, then
bucket, align, report gaps, fill, and integrate. -/
def compute_energy (rows : List Row) (fillp : String) (top_gaps : Nat) :
    Except Err Result :=
  if rows.all fun r => r.ts.isNone then .error .unparsableTimestamps
  else
    let ps := survivors rows
    if ps.isEmpty then .error .emptyInput
    else
      let full_idx := timelineOf ps
      let series := alignedOf ps
      let gr := build_gap_report full_idx series top_gaps
      let filled := fillSeries fillp full_idx series
      if filled.isEmpty then .error .emptyResult
      else
        .ok { start := startKey ps
              end_ := endKey ps
              minutes_total := full_idx.length
              avg_watts := avg_watts_of filled
              total_kwh := total_kwh_of filled
              gap_report := gr }

/-- Projection used to state concrete scenarios: the total kWh of a
successful run. -/
def kwhOf (e : Except Err Result) : Option ℚ :=
  match e with
  | .ok r => some r.total_kwh
  | .error _ => none

/-- Energy scenario input: 60 consecutive minute-mark samples of 600 W. -/
def rowsConst600 : List Row := (List.range 60).map fun i => ⟨some (60 * i), some 600⟩

/-- Minute-mark samples of 120 W at minutes 0,1,2,7,8,9 (gap scenario). -/
def rowsGap120 : List Row := [0, 1, 2, 7, 8, 9].map fun m => ⟨some (60 * m), some 120⟩

/-- The aligned series of the gap scenario: 10 minutes, missing at 3..6. -/
def seriesGap10 : List (Option ℚ) :=
  [some 1, some 1, some 1, none, none, none, none, some 1, some 1, some 1]

/-! ### Properties of the gap scan -/

theorem missingRuns_bounds :
    ∀ (l : List Bool) (i : Nat), ∀ r ∈ missingRuns i l,
      i ≤ r.1 ∧ 1 ≤ r.2 ∧ r.1 + r.2 ≤ i + l.length := by
  intro l
  induction l with
  | nil => intro i r hr; simp [missingRuns] at hr
  | cons b rest ih =>
    intro i r hr
    cases b with
    | false =>
      have h := ih (i + 1) r (by simpa [missingRuns] using hr)
      simp only [List.length_cons]
      omega
    | true =>
      rcases hmr : missingRuns (i + 1) rest with _ | ⟨⟨j, len⟩, rs⟩
      · simp only [missingRuns, hmr, List.mem_singleton] at hr
        subst hr
        simp only [List.length_cons]
        omega
      · simp only [missingRuns, hmr] at hr
        have hj := ih (i + 1) (j, len) (by rw [hmr]; exact List.mem_cons_self _ _)
        by_cases hcase : j = i + 1
        · rw [if_pos hcase] at hr
          rcases List.mem_cons.mp hr with h1 | h2
          · subst h1
            simp only [List.length_cons]
            simp only [hcase] at hj
            omega
          · have := ih (i + 1) r (by rw [hmr]; exact List.mem_cons_of_mem _ h2)
            simp only [List.length_cons]
            omega
        · rw [if_neg hcase] at hr
          rcases List.mem_cons.mp hr with h1 | h2
          · subst h1
            simp only [List.length_cons]
            omega
          · have := ih (i + 1) r (by rw [hmr]; exact h2)
            simp only [List.length_cons]
            omega

theorem missingRuns_pairwise :
    ∀ (l : List Bool) (i : Nat),
      (missingRuns i l).Pairwise (fun a b => a.1 + a.2 ≤ b.1) := by
  intro l
  induction l with
  | nil => intro i; simp [missingRuns]
  | cons b rest ih =>
    intro i
    cases b with
    | false => simpa [missingRuns] using ih (i + 1)
    | true =>
      rcases hmr : missingRuns (i + 1) rest with _ | ⟨⟨j, len⟩, rs⟩
      · simp [missingRuns, hmr]
      · have hp := ih (i + 1)
        rw [hmr] at hp
        have hjb := missingRuns_bounds rest (i + 1) (j, len)
          (by rw [hmr]; exact List.mem_cons_self _ _)
        rcases List.pairwise_cons.mp hp with ⟨hjall, hrs⟩
        simp only [missingRuns, hmr]
        by_cases hcase : j = i + 1
        · rw [if_pos hcase]
          refine List.pairwise_cons.mpr ⟨?_, hrs⟩
          intro c hc
          have := hjall c hc
          simp only at this ⊢
          omega
        · rw [if_neg hcase]
          refine List.pairwise_cons.mpr ⟨?_, hp⟩
          intro c hc
          rcases List.mem_cons.mp hc with h1 | h2
          · subst h1
            simp only
            omega
          · have := hjall c h2
            simp only at this ⊢
            omega

theorem missingRuns_covers_true :
    ∀ (l : List Bool) (i : Nat), ∀ r ∈ missingRuns i l, ∀ k, r.1 ≤ k → k < r.1 + r.2 →
      l[k - i]? = some true := by
  intro l
  induction l with
  | nil => intro i r hr; simp [missingRuns] at hr
  | cons b rest ih =>
    intro i r hr k hk1 hk2
    have hbd := missingRuns_bounds (b :: rest) i r hr
    cases b with
    | false =>
      simp only [missingRuns] at hr
      have hbd2 := missingRuns_bounds rest (i + 1) r hr
      have hgt : i + 1 ≤ k := le_trans hbd2.1 hk1
      have : k - i = (k - (i + 1)) + 1 := by omega
      rw [this, List.getElem?_cons_succ]
      exact ih (i + 1) r hr k hk1 hk2
    | true =>
      rcases hmr : missingRuns (i + 1) rest with _ | ⟨⟨j, len⟩, rs⟩
      · simp only [missingRuns, hmr, List.mem_singleton] at hr
        subst hr
        simp only at hk1 hk2
        have : k = i := by omega
        subst this
        simp
      · simp only [missingRuns, hmr] at hr
        by_cases hcase : j = i + 1
        · rw [if_pos hcase] at hr
          rcases List.mem_cons.mp hr with h1 | h2
          · subst h1
            simp only at hk1 hk2
            rcases Nat.eq_or_lt_of_le hk1 with he | hlt
            · rw [← he]
              simp
            · have hmem : (j, len) ∈ missingRuns (i + 1) rest := by
                rw [hmr]; exact List.mem_cons_self _ _
              have := ih (i + 1) (j, len) hmem k (by simp only; omega) (by simp only; omega)
              have hki : k - i = (k - (i + 1)) + 1 := by omega
              rw [hki, List.getElem?_cons_succ]
              exact this
          · have hmem : r ∈ missingRuns (i + 1) rest := by
              rw [hmr]; exact List.mem_cons_of_mem _ h2
            have hbd2 := missingRuns_bounds rest (i + 1) r hmem
            have : k - i = (k - (i + 1)) + 1 := by omega
            rw [this, List.getElem?_cons_succ]
            exact ih (i + 1) r hmem k hk1 hk2
        · rw [if_neg hcase] at hr
          rcases List.mem_cons.mp hr with h1 | h2
          · subst h1
            simp only at hk1 hk2
            have : k = i := by omega
            subst this
            simp
          · have hmem : r ∈ missingRuns (i + 1) rest := by rw [hmr]; exact h2
            have hbd2 := missingRuns_bounds rest (i + 1) r hmem
            have : k - i = (k - (i + 1)) + 1 := by omega
            rw [this, List.getElem?_cons_succ]
            exact ih (i + 1) r hmem k hk1 hk2

theorem missingRuns_of_true :
    ∀ (l : List Bool) (k i : Nat), l[k]? = some true →
      ∃ r ∈ missingRuns i l, r.1 ≤ i + k ∧ i + k < r.1 + r.2 := by
  intro l
  induction l with
  | nil => intro k i h; simp at h
  | cons b rest ih =>
    intro k i h
    cases k with
    | zero =>
      simp only [List.getElem?_cons_zero, Option.some.injEq] at h
      subst h
      rcases hmr : missingRuns (i + 1) rest with _ | ⟨⟨j, len⟩, rs⟩
      · exact ⟨(i, 1), by simp [missingRuns, hmr], by simp, by simp⟩
      · by_cases hcase : j = i + 1
        · refine ⟨(i, len + 1), ?_, by simp, by simp⟩
          simp [missingRuns, hmr, hcase]
        · refine ⟨(i, 1), ?_, by simp, by simp⟩
          simp [missingRuns, hmr, hcase]
    | succ n =>
      simp only [List.getElem?_cons_succ] at h
      obtain ⟨r, hr, h1, h2⟩ := ih n (i + 1) h
      cases b with
      | false =>
        exact ⟨r, by simpa [missingRuns] using hr, by omega, by omega⟩
      | true =>
        rcases hmr : missingRuns (i + 1) rest with _ | ⟨⟨j, len⟩, rs⟩
        · rw [hmr] at hr; simp at hr
        · rw [hmr] at hr
          by_cases hcase : j = i + 1
          · rcases List.mem_cons.mp hr with he | hm
            · subst he
              simp only at h1 h2
              refine ⟨(i, len + 1), ?_, by simp only; omega, by simp only; omega⟩
              simp [missingRuns, hmr, hcase]
            · refine ⟨r, ?_, by omega, by omega⟩
              simp only [missingRuns, hmr, if_pos hcase]
              exact List.mem_cons_of_mem _ hm
          · refine ⟨r, ?_, by omega, by omega⟩
            simp only [missingRuns, hmr, if_neg hcase]
            exact List.mem_cons_of_mem _ hr

theorem missingRuns_sum :
    ∀ (l : List Bool) (i : Nat),
      ((missingRuns i l).map (fun r => r.2)).sum = l.count true := by
  intro l
  induction l with
  | nil => intro i; simp [missingRuns]
  | cons b rest ih =>
    intro i
    cases b with
    | false =>
      simp only [missingRuns, List.count_cons]
      rw [ih (i + 1)]
      simp
    | true =>
      have hsum := ih (i + 1)
      rcases hmr : missingRuns (i + 1) rest with _ | ⟨⟨j, len⟩, rs⟩
      · rw [hmr] at hsum
        simp only [List.map_nil, List.sum_nil] at hsum
        simp [missingRuns, hmr, List.count_cons, ← hsum]
      · rw [hmr] at hsum
        by_cases hcase : j = i + 1
        · simp only [missingRuns, hmr, if_pos hcase, List.map_cons, List.sum_cons,
            List.count_cons_self]
          simp only [List.map_cons, List.sum_cons] at hsum
          omega
        · simp only [missingRuns, hmr, if_neg hcase, List.map_cons, List.sum_cons,
            List.count_cons_self]
          simp only [List.map_cons, List.sum_cons] at hsum
          omega

/-! ### The timeline and bucketing -/

theorem minuteRange_length (s L : Nat) : (minuteRange s L).length = L := by
  simp [minuteRange]

theorem minuteRange_getElem? (s L k : Nat) (h : k < L) :
    (minuteRange s L)[k]? = some (s + k) := by
  simp [minuteRange, List.getElem?_map, List.getElem?_range h]

theorem minuteRange_getD (s L k : Nat) (h : k < L) :
    (minuteRange s L).getD k 0 = s + k := by
  rw [List.getD_eq_getD_get?, List.get?_eq_getElem?, minuteRange_getElem? s L k h]
  rfl

theorem mem_minuteRange (s L m : Nat) : m ∈ minuteRange s L ↔ s ≤ m ∧ m < s + L := by
  simp only [minuteRange, List.mem_map, List.mem_range]
  constructor
  · rintro ⟨a, ha, rfl⟩; omega
  · intro h; exact ⟨m - s, by omega, by omega⟩

theorem foldr_min_mem : ∀ (l : List Nat) (m : Nat), l.foldr min m ∈ m :: l := by
  intro l
  induction l with
  | nil => intro m; simp
  | cons a t ih =>
    intro m
    simp only [List.foldr_cons]
    rcases le_total a (t.foldr min m) with h | h
    · rw [min_eq_left h]
      exact List.mem_cons_of_mem _ (List.mem_cons_self _ _)
    · rw [min_eq_right h]
      rcases List.mem_cons.mp (ih m) with h1 | h1
      · rw [h1]; exact List.mem_cons_self _ _
      · exact List.mem_cons_of_mem _ (List.mem_cons_of_mem _ h1)

theorem foldr_min_le : ∀ (l : List Nat) (m x : Nat), x ∈ m :: l → l.foldr min m ≤ x := by
  intro l
  induction l with
  | nil =>
    intro m x hx
    simp only [List.foldr_nil]
    rcases List.mem_cons.mp hx with h | h
    · omega
    · simp at h
  | cons a t ih =>
    intro m x hx
    simp only [List.foldr_cons]
    rcases List.mem_cons.mp hx with h | h
    · exact le_trans (min_le_right _ _) (ih m x (by rw [h]; exact List.mem_cons_self _ _))
    · rcases List.mem_cons.mp h with h1 | h1
      · subst h1; exact min_le_left _ _
      · exact le_trans (min_le_right _ _) (ih m x (List.mem_cons_of_mem _ h1))

theorem foldr_max_mem : ∀ (l : List Nat) (m : Nat), l.foldr max m ∈ m :: l := by
  intro l
  induction l with
  | nil => intro m; simp
  | cons a t ih =>
    intro m
    simp only [List.foldr_cons]
    rcases le_total a (t.foldr max m) with h | h
    · rw [max_eq_right h]
      rcases List.mem_cons.mp (ih m) with h1 | h1
      · rw [h1]; exact List.mem_cons_self _ _
      · exact List.mem_cons_of_mem _ (List.mem_cons_of_mem _ h1)
    · rw [max_eq_left h]
      exact List.mem_cons_of_mem _ (List.mem_cons_self _ _)

theorem le_foldr_max : ∀ (l : List Nat) (m x : Nat), x ∈ m :: l → x ≤ l.foldr max m := by
  intro l
  induction l with
  | nil =>
    intro m x hx
    simp only [List.foldr_nil]
    rcases List.mem_cons.mp hx with h | h
    · omega
    · simp at h
  | cons a t ih =>
    intro m x hx
    simp only [List.foldr_cons]
    rcases List.mem_cons.mp hx with h | h
    · exact le_trans (ih m x (by rw [h]; exact List.mem_cons_self _ _)) (le_max_right _ _)
    · rcases List.mem_cons.mp h with h1 | h1
      · subst h1; exact le_max_left _ _
      · exact le_trans (ih m x (List.mem_cons_of_mem _ h1)) (le_max_right _ _)

theorem minutesOf_ne_nil {ps : List (Nat × ℚ)} (h : ps ≠ []) : minutesOf ps ≠ [] := by
  cases ps with
  | nil => exact absurd rfl h
  | cons a t => simp [minutesOf]

theorem startKey_mem {ps : List (Nat × ℚ)} (h : ps ≠ []) : startKey ps ∈ minutesOf ps := by
  rcases hms : minutesOf ps with _ | ⟨m, ms⟩
  · exact absurd hms (minutesOf_ne_nil h)
  · simp only [startKey, hms]
    exact foldr_min_mem ms m

theorem startKey_le {ps : List (Nat × ℚ)} {x : Nat} (hx : x ∈ minutesOf ps) :
    startKey ps ≤ x := by
  rcases hms : minutesOf ps with _ | ⟨m, ms⟩
  · rw [hms] at hx; simp at hx
  · rw [hms] at hx
    simp only [startKey, hms]
    exact foldr_min_le ms m x hx

theorem endKey_mem {ps : List (Nat × ℚ)} (h : ps ≠ []) : endKey ps ∈ minutesOf ps := by
  rcases hms : minutesOf ps with _ | ⟨m, ms⟩
  · exact absurd hms (minutesOf_ne_nil h)
  · simp only [endKey, hms]
    exact foldr_max_mem ms m

theorem le_endKey {ps : List (Nat × ℚ)} {x : Nat} (hx : x ∈ minutesOf ps) :
    x ≤ endKey ps := by
  rcases hms : minutesOf ps with _ | ⟨m, ms⟩
  · rw [hms] at hx; simp at hx
  · rw [hms] at hx
    simp only [endKey, hms]
    exact le_foldr_max ms m x hx

theorem startKey_le_endKey {ps : List (Nat × ℚ)} (h : ps ≠ []) :
    startKey ps ≤ endKey ps := by
  exact le_trans (startKey_le (startKey_mem h)) (le_endKey (startKey_mem h))

theorem mem_minuteKeysOf {ps : List (Nat × ℚ)} {k : Nat} :
    k ∈ minuteKeysOf ps ↔ k ∈ minutesOf ps := by
  simp only [minuteKeysOf, List.mem_filter, List.mem_range, decide_eq_true_eq]
  constructor
  · rintro ⟨_, h⟩; exact h
  · intro h
    refine ⟨?_, h⟩
    have hx := le_foldr_max (minutesOf ps) 0 k (List.mem_cons_of_mem _ h)
    omega

theorem lookup_map_pair (l : List Nat) (f : Nat → ℚ) (k : Nat) (h : k ∈ l) :
    List.lookup k (l.map fun x => (x, f x)) = some (f k) := by
  induction l with
  | nil => simp at h
  | cons a t ih =>
    by_cases hk : k = a
    · subst hk
      simp [List.lookup]
    · rcases List.mem_cons.mp h with h1 | h1
      · exact absurd h1 hk
      · simp only [List.map_cons, List.lookup]
        have hbeq : (k == a) = false := by simpa using hk
        rw [hbeq]
        exact ih h1

theorem lookupKey_perMin {ps : List (Nat × ℚ)} {k : Nat} (h : k ∈ minutesOf ps) :
    lookupKey k (perMin ps) = some (groupMean ps k) := by
  unfold lookupKey perMin
  exact lookup_map_pair _ _ _ (mem_minuteKeysOf.mpr h)

/-! ### The fill engine -/

theorem ffillAux_length :
    ∀ (l : List (Option ℚ)) (acc : Option ℚ), (ffillAux acc l).length = l.length := by
  intro l
  induction l with
  | nil => intro acc; rfl
  | cons a rest ih =>
    intro acc
    cases a with
    | none => simp [ffillAux, ih]
    | some v => simp [ffillAux, ih]

theorem ffillAux_isSome :
    ∀ (l : List (Option ℚ)) (v : ℚ), ∀ x ∈ ffillAux (some v) l, x.isSome := by
  intro l
  induction l with
  | nil => intro v x hx; simp [ffillAux] at hx
  | cons a rest ih =>
    intro v x hx
    cases a with
    | none =>
      rcases List.mem_cons.mp hx with h | h
      · rw [h]; rfl
      · exact ih v x h
    | some w =>
      rcases List.mem_cons.mp hx with h | h
      · rw [h]; rfl
      · exact ih w x h

theorem interpAux_length :
    ∀ (l : List (Option ℚ)) (acc : Option ℚ), (interpAux acc l).length = l.length := by
  intro l
  induction l with
  | nil => intro acc; cases acc <;> rfl
  | cons a rest ih =>
    intro acc
    cases a with
    | some v => simp [interpAux, ih]
    | none =>
      cases acc with
      | none => simp [interpAux, ih]
      | some pv =>
        rcases hn : nextSome rest with _ | ⟨d, nv⟩
        · simp [interpAux, hn, ih]
        · simp [interpAux, hn, ih]

theorem interpAux_isSome :
    ∀ (l : List (Option ℚ)) (v : ℚ), ∀ x ∈ interpAux (some v) l, x.isSome := by
  intro l
  induction l with
  | nil => intro v x hx; simp [interpAux] at hx
  | cons a rest ih =>
    intro v x hx
    cases a with
    | some w =>
      rcases List.mem_cons.mp (by simpa [interpAux] using hx) with h | h
      · rw [h]; rfl
      · exact ih w x h
    | none =>
      rcases hn : nextSome rest with _ | ⟨d, nv⟩
      · rcases List.mem_cons.mp (by simpa [interpAux, hn] using hx) with h | h
        · rw [h]; rfl
        · exact ih v x h
      · rcases List.mem_cons.mp (by simpa [interpAux, hn] using hx) with h | h
        · rw [h]; rfl
        · exact ih _ x h

/-! ### The stable descending sort -/

theorem insertGapDesc_perm (g : Nat × Nat × Nat) (l : List (Nat × Nat × Nat)) :
    (insertGapDesc g l).Perm (g :: l) := by
  induction l with
  | nil => exact List.Perm.refl _
  | cons h t ih =>
    simp only [insertGapDesc]
    by_cases hc : g.2.2 < h.2.2
    · rw [if_pos hc]
      exact (ih.cons h).trans (List.Perm.swap g h t)
    · rw [if_neg hc]

theorem sortGapsDesc_perm (l : List (Nat × Nat × Nat)) : (sortGapsDesc l).Perm l := by
  induction l with
  | nil => exact List.Perm.refl _
  | cons g gs ih =>
    exact (insertGapDesc_perm g (sortGapsDesc gs)).trans (ih.cons g)

theorem mem_insertGapDesc {x g : Nat × Nat × Nat} {l : List (Nat × Nat × Nat)}
    (h : x ∈ insertGapDesc g l) : x = g ∨ x ∈ l := by
  have := (insertGapDesc_perm g l).mem_iff.mp h
  simpa using this

theorem insertGapDesc_sorted (g : Nat × Nat × Nat) (l : List (Nat × Nat × Nat))
    (hl : l.Pairwise (fun a b => b.2.2 ≤ a.2.2)) :
    (insertGapDesc g l).Pairwise (fun a b => b.2.2 ≤ a.2.2) := by
  induction l with
  | nil => simp [insertGapDesc]
  | cons h t ih =>
    rcases List.pairwise_cons.mp hl with ⟨hall, ht⟩
    simp only [insertGapDesc]
    by_cases hc : g.2.2 < h.2.2
    · rw [if_pos hc]
      refine List.pairwise_cons.mpr ⟨?_, ih ht⟩
      intro x hx
      rcases mem_insertGapDesc hx with h1 | h1
      · rw [h1]; omega
      · exact hall x h1
    · rw [if_neg hc]
      refine List.pairwise_cons.mpr ⟨?_, hl⟩
      intro x hx
      rcases List.mem_cons.mp hx with h1 | h1
      · rw [h1]; omega
      · exact le_trans (hall x h1) (by omega)

theorem sortGapsDesc_sorted (l : List (Nat × Nat × Nat)) :
    (sortGapsDesc l).Pairwise (fun a b => b.2.2 ≤ a.2.2) := by
  induction l with
  | nil => simp [sortGapsDesc]
  | cons g gs ih => exact insertGapDesc_sorted g _ ih

theorem insertGapDesc_filter_eq (g : Nat × Nat × Nat) (l : List (Nat × Nat × Nat))
    (L : Nat) (hg : g.2.2 = L) :
    (insertGapDesc g l).filter (fun x => decide (x.2.2 = L)) =
      g :: l.filter (fun x => decide (x.2.2 = L)) := by
  induction l with
  | nil => simp [insertGapDesc, List.filter, hg]
  | cons h t ih =>
    simp only [insertGapDesc]
    by_cases hc : g.2.2 < h.2.2
    · rw [if_pos hc]
      have hne : ¬(h.2.2 = L) := by omega
      simp only [List.filter_cons, decide_eq_true_eq]
      rw [if_neg hne, if_neg hne] at *
      · exact ih
    · rw [if_neg hc]
      simp only [List.filter_cons, decide_eq_true_eq]
      rw [if_pos hg]

theorem insertGapDesc_filter_ne (g : Nat × Nat × Nat) (l : List (Nat × Nat × Nat))
    (L : Nat) (hg : ¬(g.2.2 = L)) :
    (insertGapDesc g l).filter (fun x => decide (x.2.2 = L)) =
      l.filter (fun x => decide (x.2.2 = L)) := by
  induction l with
  | nil => simp [insertGapDesc, List.filter, hg]
  | cons h t ih =>
    simp only [insertGapDesc]
    by_cases hc : g.2.2 < h.2.2
    · rw [if_pos hc]
      simp only [List.filter_cons, decide_eq_true_eq]
      by_cases hh : h.2.2 = L
      · rw [if_pos hh, if_pos hh, ih]
      · rw [if_neg hh, if_neg hh, ih]
    · rw [if_neg hc]
      simp only [List.filter_cons, decide_eq_true_eq]
      rw [if_neg hg]

theorem sortGapsDesc_filter (l : List (Nat × Nat × Nat)) (L : Nat) :
    (sortGapsDesc l).filter (fun x => decide (x.2.2 = L)) =
      l.filter (fun x => decide (x.2.2 = L)) := by
  induction l with
  | nil => rfl
  | cons g gs ih =>
    simp only [sortGapsDesc]
    by_cases hg : g.2.2 = L
    · rw [insertGapDesc_filter_eq g _ L hg, ih]
      simp only [List.filter_cons, decide_eq_true_eq]
      rw [if_pos hg]
    · rw [insertGapDesc_filter_ne g _ L hg, ih]
      simp only [List.filter_cons, decide_eq_true_eq]
      rw [if_neg hg]

theorem insertGapDesc_tie_start (g : Nat × Nat × Nat) (l : List (Nat × Nat × Nat))
    (hl : l.Pairwise (fun a b => a.2.2 = b.2.2 → a.1 < b.1))
    (hall : ∀ x ∈ l, g.1 < x.1) :
    (insertGapDesc g l).Pairwise (fun a b => a.2.2 = b.2.2 → a.1 < b.1) := by
  induction l with
  | nil => simp [insertGapDesc]
  | cons h t ih =>
    rcases List.pairwise_cons.mp hl with ⟨hhall, ht⟩
    simp only [insertGapDesc]
    by_cases hc : g.2.2 < h.2.2
    · rw [if_pos hc]
      refine List.pairwise_cons.mpr ⟨?_, ?_⟩
      · intro x hx
        rcases mem_insertGapDesc hx with h1 | h1
        · rw [h1]; intro he; omega
        · exact hhall x h1
      · exact ih ht (fun x hx => hall x (List.mem_cons_of_mem _ hx))
    · rw [if_neg hc]
      refine List.pairwise_cons.mpr ⟨?_, hl⟩
      intro x hx
      exact fun _ => hall x hx

theorem sortGapsDesc_tie_start (l : List (Nat × Nat × Nat))
    (hl : l.Pairwise (fun a b => a.1 < b.1)) :
    (sortGapsDesc l).Pairwise (fun a b => a.2.2 = b.2.2 → a.1 < b.1) := by
  induction l with
  | nil => simp [sortGapsDesc]
  | cons g gs ih =>
    rcases List.pairwise_cons.mp hl with ⟨hall, hgs⟩
    refine insertGapDesc_tie_start g _ (ih hgs) ?_
    intro x hx
    exact hall x ((sortGapsDesc_perm gs).mem_iff.mp hx)

/-! ### The length buckets -/

theorem bucket_mem_unique {len : Nat} (h1 : 1 ≤ len) (h2 : len ≤ 10 ^ 9) :
    (buckets.filter fun t => decide (t.2.1 ≤ len ∧ len ≤ t.2.2)).length = 1 := by
  have hpow : (10 : Nat) ^ 9 = 1000000000 := by norm_num
  rw [hpow] at h2
  simp only [buckets, List.filter_cons, List.filter_nil, decide_eq_true_eq, hpow]
  split_ifs <;> simp_all <;> omega

theorem claimedBy_cases {len : Nat} (h1 : 1 ≤ len) (h2 : len ≤ 10 ^ 9) :
    (len ≤ 2 ∧ claimedBy len = some "1-2") ∨
    (3 ≤ len ∧ len ≤ 15 ∧ claimedBy len = some "3-15") ∨
    (16 ≤ len ∧ len ≤ 120 ∧ claimedBy len = some "16-120") ∨
    (121 ≤ len ∧ claimedBy len = some ">120") := by
  have hpow : (10 : Nat) ^ 9 = 1000000000 := by norm_num
  rw [hpow] at h2
  unfold claimedBy buckets
  by_cases c1 : len ≤ 2
  · left
    refine ⟨c1, ?_⟩
    rw [List.find?_cons_of_pos _ (by simp; omega)]
    rfl
  · by_cases c2 : len ≤ 15
    · right; left
      refine ⟨by omega, c2, ?_⟩
      rw [List.find?_cons_of_neg _ (by simp; omega),
        List.find?_cons_of_pos _ (by simp; omega)]
      rfl
    · by_cases c3 : len ≤ 120
      · right; right; left
        refine ⟨by omega, c3, ?_⟩
        rw [List.find?_cons_of_neg _ (by simp; omega),
          List.find?_cons_of_neg _ (by simp; omega),
          List.find?_cons_of_pos _ (by simp; omega)]
        rfl
      · right; right; right
        refine ⟨by omega, ?_⟩
        rw [List.find?_cons_of_neg _ (by simp; omega),
          List.find?_cons_of_neg _ (by simp; omega),
          List.find?_cons_of_neg _ (by simp; omega),
          List.find?_cons_of_pos _ (by simp [hpow]; omega)]
        rfl

theorem four_label_count (gaps : List (Nat × Nat × Nat))
    (h : ∀ g ∈ gaps, 1 ≤ g.2.2 ∧ g.2.2 ≤ 10 ^ 9) :
    (gaps.filter fun g => decide (claimedBy g.2.2 = some "1-2")).length +
      (gaps.filter fun g => decide (claimedBy g.2.2 = some "3-15")).length +
      (gaps.filter fun g => decide (claimedBy g.2.2 = some "16-120")).length +
      (gaps.filter fun g => decide (claimedBy g.2.2 = some ">120")).length = gaps.length := by
  induction gaps with
  | nil => rfl
  | cons g t ih =>
    have hg := h g (List.mem_cons_self _ _)
    have iht := ih (fun x hx => h x (List.mem_cons_of_mem _ hx))
    simp only [List.filter_cons, decide_eq_true_eq]
    rcases claimedBy_cases hg.1 hg.2 with ⟨hc, he⟩ | ⟨hc1, hc2, he⟩ | ⟨hc1, hc2, he⟩ | ⟨hc, he⟩ <;>
      rw [he] <;> simp <;> omega

theorem four_label_minutes (gaps : List (Nat × Nat × Nat))
    (h : ∀ g ∈ gaps, 1 ≤ g.2.2 ∧ g.2.2 ≤ 10 ^ 9) :
    ((gaps.filter fun g => decide (claimedBy g.2.2 = some "1-2")).map fun g => g.2.2).sum +
      ((gaps.filter fun g => decide (claimedBy g.2.2 = some "3-15")).map fun g => g.2.2).sum +
      ((gaps.filter fun g => decide (claimedBy g.2.2 = some "16-120")).map fun g => g.2.2).sum +
      ((gaps.filter fun g => decide (claimedBy g.2.2 = some ">120")).map fun g => g.2.2).sum =
      (gaps.map fun g => g.2.2).sum := by
  induction gaps with
  | nil => rfl
  | cons g t ih =>
    have hg := h g (List.mem_cons_self _ _)
    have iht := ih (fun x hx => h x (List.mem_cons_of_mem _ hx))
    simp only [List.filter_cons, decide_eq_true_eq]
    rcases claimedBy_cases hg.1 hg.2 with ⟨hc, he⟩ | ⟨hc1, hc2, he⟩ | ⟨hc1, hc2, he⟩ | ⟨hc, he⟩ <;>
      rw [he] <;> simp <;> omega

/-! ### Report accessors and shared helpers -/

theorem gap_count_eq (idx : List Nat) (series : List (Option ℚ)) (n : Nat) :
    (build_gap_report idx series n).gap_count = (gapsOf idx series).length := rfl

theorem minutes_missing_eq (idx : List Nat) (series : List (Option ℚ)) (n : Nat) :
    (build_gap_report idx series n).minutes_missing =
      (series.map Option.isNone).count true := rfl

theorem bucket_counts_eq (idx : List Nat) (series : List (Option ℚ)) (n : Nat) :
    (build_gap_report idx series n).bucket_counts = buckets.map fun t =>
      (t.1, ((gapsOf idx series).filter fun g =>
        decide (claimedBy g.2.2 = some t.1)).length) := rfl

theorem bucket_minutes_eq (idx : List Nat) (series : List (Option ℚ)) (n : Nat) :
    (build_gap_report idx series n).bucket_minutes = buckets.map fun t =>
      (t.1, (((gapsOf idx series).filter fun g =>
        decide (claimedBy g.2.2 = some t.1)).map fun g => g.2.2).sum) := rfl

theorem largest_gaps_eq (idx : List Nat) (series : List (Option ℚ)) (n : Nat) :
    (build_gap_report idx series n).largest_gaps =
      (sortGapsDesc (gapsOf idx series)).take n := rfl

/-- Every gap over a contiguous timeline comes from a run, with its keys
recovered arithmetically. -/
theorem gapsOf_minuteRange (s L : Nat) (series : List (Option ℚ))
    (hlen : series.length = L) :
    ∀ g ∈ gapsOf (minuteRange s L) series,
      ∃ r ∈ missingRuns 0 (series.map Option.isNone),
        g = (s + r.1, s + (r.1 + r.2 - 1), r.2) ∧ r.1 + r.2 ≤ L ∧ 1 ≤ r.2 := by
  intro g hg
  simp only [gapsOf, List.mem_map] at hg
  obtain ⟨r, hr, rfl⟩ := hg
  have hb := missingRuns_bounds _ 0 r hr
  have hmask : (series.map Option.isNone).length = L := by simp [hlen]
  rw [hmask] at hb
  refine ⟨r, hr, ?_, by omega, hb.2.1⟩
  rw [minuteRange_getD s L r.1 (by omega), minuteRange_getD s L (r.1 + r.2 - 1) (by omega)]

theorem sum_map_div (l : List ℚ) (c : ℚ) : (l.map fun w => w / c).sum = l.sum / c := by
  induction l with
  | nil => simp
  | cons a t ih => simp [ih, add_div]

/-! ### Claim theorems -/

/-- C2: for every non-empty list of surviving samples (hence a non-empty
BucketedSeries), the timeline built by `compute_energy` has length
(end − start in minutes) + 1, and the first and last timeline keys carry a
present value (not the missing marker) in the aligned series. -/
theorem C2_window_invariant (ps : List (Nat × ℚ)) (h : ps ≠ []) :
    (timelineOf ps).length = (endKey ps - startKey ps) + 1 ∧
    (∃ v, (alignedOf ps)[0]? = some (some v)) ∧
    (∃ v, (alignedOf ps)[(timelineOf ps).length - 1]? = some (some v)) := by
  have hse := startKey_le_endKey h
  have hL : (timelineOf ps).length = endKey ps - startKey ps + 1 := by
    simp [timelineOf, minuteRange_length]
  refine ⟨hL, ?_, ?_⟩
  · refine ⟨groupMean ps (startKey ps), ?_⟩
    have h0 : (timelineOf ps)[0]? = some (startKey ps + 0) :=
      minuteRange_getElem? _ _ 0 (by omega)
    simp only [alignedOf, List.getElem?_map, h0, Option.map_some']
    rw [Nat.add_zero, lookupKey_perMin (startKey_mem h)]
  · refine ⟨groupMean ps (endKey ps), ?_⟩
    rw [hL]
    have h0 : (timelineOf ps)[endKey ps - startKey ps + 1 - 1]? =
        some (startKey ps + (endKey ps - startKey ps)) :=
      minuteRange_getElem? _ _ _ (by omega)
    simp only [alignedOf, List.getElem?_map, h0, Option.map_some']
    rw [show startKey ps + (endKey ps - startKey ps) = endKey ps from by omega,
      lookupKey_perMin (endKey_mem h)]

theorem C2_window_invariant_witness :
    ([((0 : Nat), (1 : ℚ))] ≠ []) ∧
    ((timelineOf [((0 : Nat), (1 : ℚ))]).length =
        (endKey [((0 : Nat), (1 : ℚ))] - startKey [((0 : Nat), (1 : ℚ))]) + 1 ∧
      (∃ v, (alignedOf [((0 : Nat), (1 : ℚ))])[0]? = some (some v)) ∧
      (∃ v, (alignedOf [((0 : Nat), (1 : ℚ))])[(timelineOf [((0 : Nat), (1 : ℚ))]).length - 1]? =
        some (some v))) :=
  ⟨by decide, C2_window_invariant [((0 : Nat), (1 : ℚ))] (by decide)⟩

/-- C10: every gap triple emitted by `build_gap_report` over a contiguous
timeline is internally consistent: length at least 1, end = start +
(length − 1) minutes, and both endpoints are timeline keys. -/
theorem C10_gap_triples (s L : Nat) (series : List (Option ℚ)) (hlen : series.length = L) :
    ∀ g ∈ gapsOf (minuteRange s L) series,
      1 ≤ g.2.2 ∧ g.2.1 = g.1 + (g.2.2 - 1) ∧
      g.1 ∈ minuteRange s L ∧ g.2.1 ∈ minuteRange s L := by
  intro g hg
  obtain ⟨r, hr, hgr, hb, h1⟩ := gapsOf_minuteRange s L series hlen g hg
  obtain ⟨ri, rl⟩ := r
  have hb2 : ri + rl ≤ L := hb
  have h12 : 1 ≤ rl := h1
  subst hgr
  refine ⟨h12, ?_, ?_, ?_⟩
  · show s + (ri + rl - 1) = s + ri + (rl - 1)
    omega
  · show s + ri ∈ minuteRange s L
    rw [mem_minuteRange]
    omega
  · show s + (ri + rl - 1) ∈ minuteRange s L
    rw [mem_minuteRange]
    omega

theorem C10_gap_triples_witness :
    (seriesGap10.length = 10) ∧
    (∀ g ∈ gapsOf (minuteRange 0 10) seriesGap10,
      1 ≤ g.2.2 ∧ g.2.1 = g.1 + (g.2.2 - 1) ∧
      g.1 ∈ minuteRange 0 10 ∧ g.2.1 ∈ minuteRange 0 10) :=
  ⟨rfl, C10_gap_triples 0 10 seriesGap10 rfl⟩

/-- C3: the gaps found by `build_gap_report` partition exactly the missing
minutes of the timeline (no omissions: every missing minute lies in a gap and
every gap minute is missing; no overlaps: gaps are disjoint), their lengths
sum to `minutes_missing`; in the 10-minute scenario with minutes 3..6 missing,
exactly one gap (start 3, end 6, length 4) is reported and the missing
percentage is 40. -/
theorem C3_gap_partition (s L : Nat) (series : List (Option ℚ)) (top_n : Nat)
    (hlen : series.length = L) :
    ((∀ m : Nat, (∃ k, k < L ∧ m = s + k ∧ series[k]? = some none) ↔
        ∃ g ∈ gapsOf (minuteRange s L) series, g.1 ≤ m ∧ m ≤ g.2.1) ∧
      (gapsOf (minuteRange s L) series).Pairwise (fun a b => a.2.1 < b.1) ∧
      ((gapsOf (minuteRange s L) series).map fun g => g.2.2).sum =
        (build_gap_report (minuteRange s L) series top_n).minutes_missing) ∧
    ((build_gap_report (minuteRange 0 10) seriesGap10 10).gap_count = 1 ∧
      (build_gap_report (minuteRange 0 10) seriesGap10 10).largest_gaps = [(3, 6, 4)] ∧
      (build_gap_report (minuteRange 0 10) seriesGap10 10).minutes_missing = 4 ∧
      (build_gap_report (minuteRange 0 10) seriesGap10 10).missing_pct = 40) := by
  have hmask : (series.map Option.isNone).length = L := by simp [hlen]
  refine ⟨⟨?_, ?_, ?_⟩, by decide!⟩
  · intro m
    constructor
    · rintro ⟨k, hk, rfl, hknone⟩
      have hmk : (series.map Option.isNone)[k]? = some true := by
        rw [List.getElem?_map, hknone]
        rfl
      obtain ⟨r, hr, hr1, hr2⟩ := missingRuns_of_true (series.map Option.isNone) k 0 hmk
      have hb := missingRuns_bounds _ 0 r hr
      rw [hmask] at hb
      simp only [Nat.zero_add] at hr1 hr2 hb
      refine ⟨(s + r.1, s + (r.1 + r.2 - 1), r.2), ?_, ?_, ?_⟩
      · simp only [gapsOf, List.mem_map]
        refine ⟨r, hr, ?_⟩
        rw [minuteRange_getD s L r.1 (by omega),
          minuteRange_getD s L (r.1 + r.2 - 1) (by omega)]
      · show s + r.1 ≤ s + k
        omega
      · show s + k ≤ s + (r.1 + r.2 - 1)
        omega
    · rintro ⟨g, hg, hm1, hm2⟩
      obtain ⟨r, hr, hgr, hbd, hpos⟩ := gapsOf_minuteRange s L series hlen g hg
      obtain ⟨ri, rl⟩ := r
      have hbd2 : ri + rl ≤ L := hbd
      have hpos2 : 1 ≤ rl := hpos
      subst hgr
      have hm1 : s + ri ≤ m := hm1
      have hm2 : m ≤ s + (ri + rl - 1) := hm2
      refine ⟨m - s, by omega, by omega, ?_⟩
      have hcov := missingRuns_covers_true (series.map Option.isNone) 0 (ri, rl) hr
        (m - s) (by show ri ≤ m - s; omega) (by show m - s < ri + rl; omega)
      rw [Nat.sub_zero] at hcov
      rw [List.getElem?_map] at hcov
      rcases hser : series[m - s]? with _ | x
      · rw [hser] at hcov
        simp at hcov
      · rw [hser] at hcov
        simp only [Option.map_some', Option.some.injEq] at hcov
        rw [Option.isNone_iff_eq_none] at hcov
        rw [hcov]
  · rw [gapsOf, List.pairwise_map]
    refine (missingRuns_pairwise (series.map Option.isNone) 0).imp_of_mem ?_
    intro a b ha hb hab
    have hba := missingRuns_bounds _ 0 a ha
    have hbb := missingRuns_bounds _ 0 b hb
    rw [hmask] at hba hbb
    show (minuteRange s L).getD (a.1 + a.2 - 1) 0 < (minuteRange s L).getD b.1 0
    rw [minuteRange_getD s L (a.1 + a.2 - 1) (by omega),
      minuteRange_getD s L b.1 (by omega)]
    omega
  · rw [minutes_missing_eq, gapsOf, List.map_map, ← missingRuns_sum (series.map Option.isNone) 0]
    rfl

theorem C3_gap_partition_witness :
    (seriesGap10.length = 10) ∧
    (((∀ m : Nat, (∃ k, k < 10 ∧ m = 0 + k ∧ seriesGap10[k]? = some none) ↔
        ∃ g ∈ gapsOf (minuteRange 0 10) seriesGap10, g.1 ≤ m ∧ m ≤ g.2.1) ∧
      (gapsOf (minuteRange 0 10) seriesGap10).Pairwise (fun a b => a.2.1 < b.1) ∧
      ((gapsOf (minuteRange 0 10) seriesGap10).map fun g => g.2.2).sum =
        (build_gap_report (minuteRange 0 10) seriesGap10 10).minutes_missing) ∧
    ((build_gap_report (minuteRange 0 10) seriesGap10 10).gap_count = 1 ∧
      (build_gap_report (minuteRange 0 10) seriesGap10 10).largest_gaps = [(3, 6, 4)] ∧
      (build_gap_report (minuteRange 0 10) seriesGap10 10).minutes_missing = 4 ∧
      (build_gap_report (minuteRange 0 10) seriesGap10 10).missing_pct = 40)) :=
  ⟨rfl, C3_gap_partition 0 10 seriesGap10 10 rfl⟩

/-- C4: for an aligned series whose first and last entries are present, the
carry-forward (`locf`) and `interp` fills produce a filled series whose
domain is exactly the timeline with no missing value left, and the drop
(`none`) fill produces a filled series whose domain is a sub-sequence of the
timeline. -/
theorem C4_fill_totality (idx : List Nat) (series : List (Option ℚ))
    (hlen : idx.length = series.length)
    (hfirst : ∃ v, series[0]? = some (some v))
    (hlast : ∃ v, series[series.length - 1]? = some (some v)) :
    ((fillSeries "locf" idx series).map (fun q => q.1) = idx ∧
      ∀ q ∈ fillSeries "locf" idx series, q.2.isSome) ∧
    ((fillSeries "interp" idx series).map (fun q => q.1) = idx ∧
      ∀ q ∈ fillSeries "interp" idx series, q.2.isSome) ∧
    (((fillSeries "none" idx series).map (fun q => q.1)).Sublist idx ∧
      ∀ q ∈ fillSeries "none" idx series, q.1 ∈ idx) := by
  obtain ⟨v, hv⟩ := hfirst
  have hlocf : fillSeries "locf" idx series = idx.zip (ffill series) := by
    simp [fillSeries]
  have hinterp : fillSeries "interp" idx series = idx.zip (interpFill series) := by
    simp [fillSeries]
  have hnone : fillSeries "none" idx series =
      (idx.zip series).filter (fun q => q.2.isSome) := by
    simp [fillSeries]
  cases series with
  | nil => simp at hv
  | cons a rest =>
    have ha : a = some v := by simpa using hv
    subst ha
    have hffl : ffill (some v :: rest) = some v :: ffillAux (some v) rest := rfl
    have hifl : interpFill (some v :: rest) = some v :: interpAux (some v) rest := by
      simp [interpFill, interpAux]
    have hlen2 : idx.length = rest.length + 1 := by simpa using hlen
    refine ⟨⟨?_, ?_⟩, ⟨?_, ?_⟩, ?_, ?_⟩
    · rw [hlocf]
      apply List.map_fst_zip
      rw [ffill, ffillAux_length]
      simp [hlen2]
    · rw [hlocf]
      rintro ⟨q1, q2⟩ hq
      have h2 := (List.of_mem_zip hq).2
      rw [hffl] at h2
      rcases List.mem_cons.mp h2 with h | h
      · show q2.isSome = true
        rw [h]
        rfl
      · exact ffillAux_isSome rest v q2 h
    · rw [hinterp]
      apply List.map_fst_zip
      rw [interpFill, interpAux_length]
      simp [hlen2]
    · rw [hinterp]
      rintro ⟨q1, q2⟩ hq
      have h2 := (List.of_mem_zip hq).2
      rw [hifl] at h2
      rcases List.mem_cons.mp h2 with h | h
      · show q2.isSome = true
        rw [h]
        rfl
      · exact interpAux_isSome rest v q2 h
    · rw [hnone]
      have hs : (((idx.zip (some v :: rest)).filter (fun q => q.2.isSome)).map
          (fun q => q.1)).Sublist ((idx.zip (some v :: rest)).map (fun q => q.1)) :=
        List.Sublist.map (fun (q : Nat × Option ℚ) => q.1) (List.filter_sublist _)
      rwa [List.map_fst_zip idx _ (by simp [hlen2])] at hs
    · rw [hnone]
      rintro ⟨q1, q2⟩ hq
      exact (List.of_mem_zip (List.mem_of_mem_filter hq)).1

theorem C4_fill_totality_witness :
    ((minuteRange 0 10).length = seriesGap10.length) ∧
    (∃ v, seriesGap10[0]? = some (some v)) ∧
    (∃ v, seriesGap10[seriesGap10.length - 1]? = some (some v)) ∧
    (((fillSeries "locf" (minuteRange 0 10) seriesGap10).map (fun q => q.1) =
        minuteRange 0 10 ∧
      ∀ q ∈ fillSeries "locf" (minuteRange 0 10) seriesGap10, q.2.isSome) ∧
    ((fillSeries "interp" (minuteRange 0 10) seriesGap10).map (fun q => q.1) =
        minuteRange 0 10 ∧
      ∀ q ∈ fillSeries "interp" (minuteRange 0 10) seriesGap10, q.2.isSome) ∧
    (((fillSeries "none" (minuteRange 0 10) seriesGap10).map (fun q => q.1)).Sublist
        (minuteRange 0 10) ∧
      ∀ q ∈ fillSeries "none" (minuteRange 0 10) seriesGap10, q.1 ∈ minuteRange 0 10)) :=
  ⟨by decide, ⟨1, rfl⟩, ⟨1, rfl⟩,
    C4_fill_totality (minuteRange 0 10) seriesGap10 (by decide) ⟨1, rfl⟩ ⟨1, rfl⟩⟩

/-- C1: for every non-empty filled series the total energy equals the sum of
the per-minute Watt values divided by 60000, and on 60 minute-mark samples of
constant 600 W with no gaps the total is exactly 0.6 kWh (= 3/5). -/
theorem C1_total_energy (filled : List (Nat × Option ℚ)) (_h : filled ≠ []) :
    total_kwh_of filled = (presentVals filled).sum / 60000 ∧
    kwhOf (compute_energy rowsConst600 "locf" 10) = some (3 / 5) := by
  refine ⟨?_, by set_option maxRecDepth 100000 in decide!⟩
  rw [total_kwh_of, sum_map_div]

theorem C1_total_energy_witness :
    ([((0 : Nat), some (600 : ℚ))] ≠ []) ∧
    (total_kwh_of [((0 : Nat), some (600 : ℚ))] =
      (presentVals [((0 : Nat), some (600 : ℚ))]).sum / 60000 ∧
    kwhOf (compute_energy rowsConst600 "locf" 10) = some (3 / 5)) :=
  ⟨by decide, C1_total_energy [((0 : Nat), some (600 : ℚ))] (by decide)⟩

/-- C8: with minutes 3..6 of a 10-minute window missing and 120 W at the six
present minutes, the drop policy yields exactly 120·6/60000 = 0.012 kWh
(= 3/250), strictly less than what carry-forward yields on the same data. -/
theorem C8_drop_undercount :
    kwhOf (compute_energy rowsGap120 "none" 10) = some (3 / 250) ∧
    ∃ q, kwhOf (compute_energy rowsGap120 "locf" 10) = some q ∧ 3 / 250 < q := by
  refine ⟨?_, 1 / 50, ?_, ?_⟩ <;> set_option maxRecDepth 100000 in decide!

theorem missingRuns_replicate_true :
    ∀ (N i : Nat), missingRuns i (List.replicate N true ++ [false]) =
      if N = 0 then [] else [(i, N)] := by
  intro N
  induction N with
  | zero => intro i; simp [missingRuns]
  | succ n ih =>
    intro i
    rw [List.replicate_succ, List.cons_append]
    simp only [missingRuns]
    rw [ih (i + 1)]
    by_cases hn : n = 0
    · subst hn
      simp
    · rw [if_neg hn]
      simp

theorem replicate_getD_zero (n k : Nat) : (List.replicate n (0 : Nat)).getD k 0 = 0 := by
  rcases lt_or_le k n with h | h
  · rw [List.getD_eq_getElem _ _ (by simpa using h)]
    simp
  · rw [List.getD_eq_default _ _ (by simpa using h)]

/-- C5 as stated is false on the code: a gap of 10^9 + 1 minutes is claimed
by no length bucket, because the ">120" bucket of `build_gap_report` is
capped at 10^9 minutes rather than unbounded. -/
theorem C5_counterexample :
    ∃ g ∈ gapsOf (List.replicate (10 ^ 9 + 3) 0)
        ((some 1 : Option ℚ) :: (List.replicate (10 ^ 9 + 1) none ++ [some 1])),
      (buckets.filter fun t => decide (t.2.1 ≤ g.2.2 ∧ g.2.2 ≤ t.2.2)).length = 0 := by
  refine ⟨(0, 0, 10 ^ 9 + 1), ?_, ?_⟩
  · have hmask : ((some 1 : Option ℚ) ::
        (List.replicate (10 ^ 9 + 1) none ++ [some 1])).map Option.isNone =
        false :: (List.replicate (10 ^ 9 + 1) true ++ [false]) := by
      simp only [List.map_cons, List.map_append, List.map_replicate, Option.isNone_none,
        Option.isNone_some, List.map_nil]
    have hruns : missingRuns 0 (false :: (List.replicate (10 ^ 9 + 1) true ++ [false])) =
        [(1, 10 ^ 9 + 1)] := by
      rw [missingRuns.eq_2, missingRuns_replicate_true]
      rw [if_neg (by norm_num)]
    show (0, 0, 10 ^ 9 + 1) ∈
      (missingRuns 0 (((some 1 : Option ℚ) ::
        (List.replicate (10 ^ 9 + 1) none ++ [some 1])).map Option.isNone)).map fun r =>
        ((List.replicate (10 ^ 9 + 3) 0).getD r.1 0,
         (List.replicate (10 ^ 9 + 3) 0).getD (r.1 + r.2 - 1) 0, r.2)
    rw [hmask, hruns]
    simp only [List.map_cons, List.map_nil, replicate_getD_zero, List.mem_singleton]
  · decide

/-- C5 amended: for every aligned series spanning at most 10^9 minutes (the
cap of the ">120" bucket; a pandas timeline is far shorter), every gap is
claimed by exactly one bucket, the bucket counts sum to `gap_count`, and the
bucket minutes sum to `minutes_missing`. -/
theorem C5_bucket_completeness (idx : List Nat) (series : List (Option ℚ)) (top_n : Nat)
    (hlen : series.length ≤ 10 ^ 9) :
    (∀ g ∈ gapsOf idx series,
        (buckets.filter fun t => decide (t.2.1 ≤ g.2.2 ∧ g.2.2 ≤ t.2.2)).length = 1) ∧
    ((build_gap_report idx series top_n).bucket_counts.map (fun t => t.2)).sum =
      (build_gap_report idx series top_n).gap_count ∧
    ((build_gap_report idx series top_n).bucket_minutes.map (fun t => t.2)).sum =
      (build_gap_report idx series top_n).minutes_missing := by
  have hgb : ∀ g ∈ gapsOf idx series, 1 ≤ g.2.2 ∧ g.2.2 ≤ 10 ^ 9 := by
    intro g hg
    simp only [gapsOf, List.mem_map] at hg
    obtain ⟨r, hr, hgr⟩ := hg
    obtain ⟨ri, rl⟩ := r
    have hb := missingRuns_bounds _ 0 (ri, rl) hr
    have hb1 : 1 ≤ rl := hb.2.1
    have hb2 : ri + rl ≤ 0 + (series.map Option.isNone).length := hb.2.2
    have hm : (series.map Option.isNone).length = series.length := by simp
    rw [hm] at hb2
    have hg22 : g.2.2 = rl := by rw [← hgr]
    rw [hg22]
    exact ⟨hb1, by omega⟩
  refine ⟨?_, ?_, ?_⟩
  · intro g hg
    exact bucket_mem_unique (hgb g hg).1 (hgb g hg).2
  · rw [bucket_counts_eq, gap_count_eq]
    simp only [buckets, List.map_cons, List.map_nil, List.sum_cons, List.sum_nil]
    have h4 := four_label_count (gapsOf idx series) hgb
    omega
  · rw [bucket_minutes_eq, minutes_missing_eq]
    simp only [buckets, List.map_cons, List.map_nil, List.sum_cons, List.sum_nil]
    have h4 := four_label_minutes (gapsOf idx series) hgb
    have hsum : ((gapsOf idx series).map fun g => g.2.2).sum =
        (series.map Option.isNone).count true := by
      rw [gapsOf, List.map_map, ← missingRuns_sum (series.map Option.isNone) 0]
      rfl
    omega

theorem C5_bucket_completeness_witness :
    (seriesGap10.length ≤ 10 ^ 9) ∧
    ((∀ g ∈ gapsOf (minuteRange 0 10) seriesGap10,
        (buckets.filter fun t => decide (t.2.1 ≤ g.2.2 ∧ g.2.2 ≤ t.2.2)).length = 1) ∧
    ((build_gap_report (minuteRange 0 10) seriesGap10 10).bucket_counts.map
        (fun t => t.2)).sum =
      (build_gap_report (minuteRange 0 10) seriesGap10 10).gap_count ∧
    ((build_gap_report (minuteRange 0 10) seriesGap10 10).bucket_minutes.map
        (fun t => t.2)).sum =
      (build_gap_report (minuteRange 0 10) seriesGap10 10).minutes_missing) :=
  ⟨by decide, C5_bucket_completeness (minuteRange 0 10) seriesGap10 10 (by decide)⟩

/-- C6: `largest_gaps` is the list of all gaps stably sorted by length
descending and truncated to at most `top_n` entries: its length is
min(top_n, gap_count), it is sorted by length descending, the sorted list is
a permutation of the gaps preserving the encounter order within each length
(so ties keep chronological order), and among equal lengths the gap with the
earlier start comes first. -/
theorem C6_largest_gaps (s L : Nat) (series : List (Option ℚ)) (top_n : Nat)
    (hlen : series.length = L) :
    ((build_gap_report (minuteRange s L) series top_n).largest_gaps.length =
      min top_n (build_gap_report (minuteRange s L) series top_n).gap_count) ∧
    (build_gap_report (minuteRange s L) series top_n).largest_gaps.Pairwise
      (fun a b => b.2.2 ≤ a.2.2) ∧
    (sortGapsDesc (gapsOf (minuteRange s L) series)).Perm
      (gapsOf (minuteRange s L) series) ∧
    (∀ len : Nat,
      (sortGapsDesc (gapsOf (minuteRange s L) series)).filter
          (fun x => decide (x.2.2 = len)) =
        (gapsOf (minuteRange s L) series).filter (fun x => decide (x.2.2 = len))) ∧
    (build_gap_report (minuteRange s L) series top_n).largest_gaps.Pairwise
      (fun a b => a.2.2 = b.2.2 → a.1 < b.1) := by
  have hperm := sortGapsDesc_perm (gapsOf (minuteRange s L) series)
  refine ⟨?_, ?_, hperm, fun len => sortGapsDesc_filter _ len, ?_⟩
  · rw [largest_gaps_eq, gap_count_eq, List.length_take, hperm.length_eq]
  · rw [largest_gaps_eq]
    exact List.Pairwise.sublist (List.take_sublist _ _) (sortGapsDesc_sorted _)
  · rw [largest_gaps_eq]
    refine List.Pairwise.sublist (List.take_sublist _ _) ?_
    apply sortGapsDesc_tie_start
    rw [gapsOf, List.pairwise_map]
    refine (missingRuns_pairwise _ 0).imp_of_mem ?_
    intro a b ha hb hab
    have hba := missingRuns_bounds _ 0 a ha
    have hbb := missingRuns_bounds _ 0 b hb
    have hm : (series.map Option.isNone).length = L := by simp [hlen]
    rw [hm] at hba hbb
    show (minuteRange s L).getD a.1 0 < (minuteRange s L).getD b.1 0
    rw [minuteRange_getD s L a.1 (by omega), minuteRange_getD s L b.1 (by omega)]
    omega

theorem C6_largest_gaps_witness :
    (seriesGap10.length = 10) ∧
    (((build_gap_report (minuteRange 0 10) seriesGap10 10).largest_gaps.length =
      min 10 (build_gap_report (minuteRange 0 10) seriesGap10 10).gap_count) ∧
    (build_gap_report (minuteRange 0 10) seriesGap10 10).largest_gaps.Pairwise
      (fun a b => b.2.2 ≤ a.2.2) ∧
    (sortGapsDesc (gapsOf (minuteRange 0 10) seriesGap10)).Perm
      (gapsOf (minuteRange 0 10) seriesGap10) ∧
    (∀ len : Nat,
      (sortGapsDesc (gapsOf (minuteRange 0 10) seriesGap10)).filter
          (fun x => decide (x.2.2 = len)) =
        (gapsOf (minuteRange 0 10) seriesGap10).filter (fun x => decide (x.2.2 = len))) ∧
    (build_gap_report (minuteRange 0 10) seriesGap10 10).largest_gaps.Pairwise
      (fun a b => a.2.2 = b.2.2 → a.1 < b.1)) :=
  ⟨rfl, C6_largest_gaps 0 10 seriesGap10 10 rfl⟩

/-- C7 as stated is false on the code: with a single row whose timestamp
fails to parse but whose power is numeric, zero (timestamp, power) pairs
survive parsing, yet `compute_energy` raises the all-timestamps-unparsable
error, not `EmptyInputError`. -/
theorem C7_counterexample :
    ¬(compute_energy [⟨none, some 100⟩] "locf" 10 = .error .emptyInput ↔
      survivors [⟨none, some 100⟩] = []) := by
  intro h
  have h2 : survivors [⟨none, some (100 : ℚ)⟩] = [] := rfl
  have h3 := h.mpr h2
  have h4 : compute_energy [⟨none, some (100 : ℚ)⟩] "locf" 10 =
      .error .unparsableTimestamps := rfl
  rw [h4] at h3
  simp at h3

/-- C7 amended: `compute_energy` fails with `EmptyInputError` iff zero
(timestamp, power) pairs survive parsing AND at least one timestamp parses
(when every timestamp fails to parse, the earlier all-timestamps-unparsable
error preempts it); when at least one pair survives, `EmptyInputError` is
never raised. -/
theorem C7_empty_input (rows : List Row) (fillp : String) (top_gaps : Nat) :
    compute_energy rows fillp top_gaps = .error .emptyInput ↔
      (survivors rows = [] ∧ ∃ r ∈ rows, r.ts.isSome) := by
  by_cases hall : rows.all (fun r => r.ts.isNone) = true
  · rw [compute_energy, if_pos hall]
    apply iff_of_false
    · simp
    · rintro ⟨-, r, hr, hts⟩
      rw [List.all_eq_true] at hall
      have h2 := hall r hr
      rw [Option.isNone_iff_eq_none] at h2
      rw [h2] at hts
      simp at hts
  · have hsome : ∃ r ∈ rows, r.ts.isSome := by
      rw [List.all_eq_true] at hall
      push_neg at hall
      obtain ⟨r, hr, hrn⟩ := hall
      refine ⟨r, hr, ?_⟩
      cases hts : r.ts with
      | none => rw [Option.isNone_iff_eq_none.symm] at hts; exact absurd hts hrn
      | some t => rfl
    rw [compute_energy, if_neg hall]
    by_cases hemp : (survivors rows).isEmpty = true
    · simp only [hemp, if_pos rfl]
      apply iff_of_true rfl
      exact ⟨List.isEmpty_iff.mp hemp, hsome⟩
    · simp only [hemp]
      rw [if_neg (by simp [hemp])]
      have hne : ¬(survivors rows = []) := fun h => hemp (by rw [h]; rfl)
      by_cases hfill : (fillSeries fillp (timelineOf (survivors rows))
          (alignedOf (survivors rows))).isEmpty = true
      · rw [if_pos hfill]
        apply iff_of_false
        · simp
        · rintro ⟨h1, -⟩
          exact hne h1
      · rw [if_neg hfill]
        apply iff_of_false
        · simp
        · rintro ⟨h1, -⟩
          exact hne h1

end CalcIpmiEnergy
